import Mathlib

/-!
Verification of the sijson streaming ASCII JSON writer
(`src/include/sijson/writer.hpp`).

The writer is shallowly embedded: the sink is a list of characters built up
by each call, the node stack of the grammar machine is an explicit list, and
every operation returns the bytes it wrote, the resulting stack, and an
optional error (C++ exceptions become `Option WErr`; bytes already put to the
stream before a throw are kept, matching the semantics of the C++ code where
`m_stream.put` writes directly to the sink).

Definitions marked `Modelled from the spec:` embed parts of the repository
that are not under `src/` (the grammar base class `internal::rw_base` from
`internal/impl_rw.hpp`, the helpers `iutil::absu` and `iutil::max_chars10`
from `internal/util.hpp`, and the external sink interface); they follow the
specification's description of those parts. Everything else is translated
directly from `writer.hpp`.
-/

namespace Sijson

/-- Document node kinds (`DOCNODE_root` … in `common.hpp`; spec §3 DocNode). -/
inductive DocNode : Type
  | root
  | object
  | array
  | key
  | value
deriving DecidableEq

/-- A node of the grammar machine's stack: kind plus the `has_children` flag
(spec §3: whether this container has already emitted at least one member). -/
structure Node : Type where
  type : DocNode
  has_children : Bool
deriving DecidableEq

/-- Error taxonomy (spec §7). `GrammarViolation` covers both the
`assert_rule` failures and the multiple-roots `std::runtime_error` thrown by
`write_separator`; `NullKey` is the `std::invalid_argument("Key is null.")`;
`InvalidNumericValue` is the `std::invalid_argument` of
`write_floating_impl`. -/
inductive WErr : Type
  | GrammarViolation
  | NullKey
  | InvalidNumericValue
deriving DecidableEq

/-- The grammar machine's node stack, top first.  `ascii_writer`'s
constructor pushes a single `DOCNODE_root` node (writer.hpp:177). -/
abbrev Stack := List Node

/-- Initial stack of a freshly constructed `ascii_writer` (writer.hpp:174-178). -/
def init_stack : Stack := [⟨DocNode.root, false⟩]

/-- Result of one writer call: the bytes this call wrote to the sink (kept
even when the call then failed), the node stack when the call returned or
threw, and the error if it threw. -/
structure WOut : Type where
  bytes : List Char
  stack : Stack
  err : Option WErr
deriving DecidableEq

/-! ### String escaping (`raw_ascii_writer::write_string_from`, writer.hpp:384-408) -/

/-- One iteration of the escape loop of `write_string_from`
(writer.hpp:392-404): the named two-character escapes, every other byte
passed through unchanged. -/
def escape_char (c : Char) : List Char :=
  if c = '\x08' then ['\\', 'b']
  else if c = '\x0c' then ['\\', 'f']
  else if c = '\n' then ['\\', 'n']
  else if c = '\r' then ['\\', 'r']
  else if c = '\t' then ['\\', 't']
  else if c = '\"' then ['\\', '\"']
  else if c = '\\' then ['\\', '\\']
  else [c]

/-- The escape loop of `write_string_from` over the whole input
(writer.hpp:390-405). -/
def write_string_body : List Char → List Char
  | [] => []
  | c :: cs => escape_char c ++ write_string_body cs

/-- `raw_ascii_writer::write_string_from` (writer.hpp:384-408): optional
opening quote, escaped body, optional closing quote. -/
def write_string_from (quoted : Bool) (s : List Char) : List Char :=
  (if quoted then ['\"'] else []) ++ write_string_body s
    ++ (if quoted then ['\"'] else [])

/-! ### Unsigned integer encoding (`write_uint_impl`, writer.hpp:305-320) -/

/-- The character `'0' + (value % 10)` written by the digit loop. -/
def digit_char (n : Nat) : Char := Char.ofNat (48 + n % 10)

/-- The do-while digit loop of `write_uint_impl` (writer.hpp:312-317):
prepend the units digit, divide by 10, stop when the quotient is zero.  The
fuel argument only makes the recursion structural; `write_uint_chars` always
supplies enough fuel for the loop to run to completion. -/
def uint_core : Nat → Nat → List Char → List Char
  | 0, _, acc => acc
  | fuel + 1, n, acc =>
    let acc' := digit_char n :: acc
    if n / 10 = 0 then acc' else uint_core fuel (n / 10) acc'

/-- `raw_ascii_writer::write_uint_impl` (writer.hpp:305-320): the buffer
read forward, i.e. most significant digit first. -/
def write_uint_chars (n : Nat) : List Char := uint_core (n + 1) n []

/-! ### Signed integer encoding (`write_int_impl`, writer.hpp:322-341) -/

/-- Modelled from the spec: `iutil::absu` (`internal/util.hpp`, not under
`src/`) — "take absolute value via a width-safe unsigned conversion (must not
overflow for the minimal representable negative value)".  The value is
converted to the unsigned type of the same width `w` (two's-complement
wraparound, i.e. reduction mod `2^w`) and, when negative, negated in
unsigned arithmetic. -/
def absu (w : Nat) (v : Int) : Nat :=
  let u : Nat := (v % ((2 : Int) ^ w)).toNat
  if v < 0 then (2 ^ w - u) % 2 ^ w else u

/-- `raw_ascii_writer::write_int_impl` (writer.hpp:322-341): digits of
`absu value`, with `'-'` prepended when the value is negative. -/
def write_int_chars (w : Nat) (v : Int) : List Char :=
  let ds := write_uint_chars (absu w v)
  if v < 0 then '-' :: ds else ds

/-! ### Floating-point encoding (`write_floating_impl`, writer.hpp:343-360) -/

/-- Modelled from the spec: the decimal rendering of a finite floating value
is produced by a `std::ostream` imbued with the classic locale at
`max_digits10` precision (writer.hpp:350-356); that rendering is external to
the repository, so a floating value is abstracted by whether it is finite
and, when finite, by the decimal text the ostream renders for it.  The
finiteness test and the order of effects are from the source. -/
inductive FloatVal : Type
  | finite (rendering : List Char)
  | nonfinite
deriving DecidableEq

/-- `raw_ascii_writer::write_floating_impl` (writer.hpp:343-360): a
non-finite value throws `InvalidNumericValue` before anything is written;
a finite value is rendered and emitted. -/
def write_floating : FloatVal → List Char × Option WErr
  | FloatVal.nonfinite => ([], some WErr.InvalidNumericValue)
  | FloatVal.finite r => (r, none)

/-! ### Value dispatch (`raw_ascii_writer::write`, writer.hpp:113-117, 142-159) -/

/-- The closed sum of writable value categories dispatched by
`raw_ascii_writer::write_t_impl` (writer.hpp:142-159; spec §9 design note).
Integers carry their bit width `w`. A string value is `jstr (some s)`;
`jstr none` is a null `const char*`. -/
inductive JValue : Type
  | jint (w : Nat) (v : Int)
  | juint (w : Nat) (v : Nat)
  | jfloat (f : FloatVal)
  | jbool (b : Bool)
  | jstr (s : Option (List Char))
  | jnull
deriving DecidableEq

/-- `raw_ascii_writer::write` (writer.hpp:113-117): dispatch to the encoder
matching the value's category.  `write_bool` (writer.hpp:61-66),
`write_null` (writer.hpp:68), `write_string` (writer.hpp:78-86: a null
pointer writes the `null` literal, otherwise the escaped quoted string). -/
def raw_write : JValue → List Char × Option WErr
  | JValue.jint w v => (write_int_chars w v, none)
  | JValue.juint _ v => (write_uint_chars v, none)
  | JValue.jfloat f => write_floating f
  | JValue.jbool true => (['t', 'r', 'u', 'e'], none)
  | JValue.jbool false => (['f', 'a', 'l', 's', 'e'], none)
  | JValue.jstr none => (['n', 'u', 'l', 'l'], none)
  | JValue.jstr (some s) => (write_string_from true s, none)
  | JValue.jnull => (['n', 'u', 'l', 'l'], none)

/-! ### The grammar machine (`internal::rw_base`, spec §4.1) -/

/-- Modelled from the spec: `rw_base`'s structural rule (spec §4.1 `enter`):
`OBJECT`/`ARRAY`/`VALUE` may be pushed when the top is `ROOT`, `ARRAY` or
`KEY`; `KEY` may be pushed only when the top is `OBJECT`.  (The
multiple-roots case is rejected separately, by `write_separator`, which is
in the source.) -/
def check_rule (child top : DocNode) : Bool :=
  match child with
  | DocNode.object => top == DocNode.root || top == DocNode.array || top == DocNode.key
  | DocNode.array => top == DocNode.root || top == DocNode.array || top == DocNode.key
  | DocNode.value => top == DocNode.root || top == DocNode.array || top == DocNode.key
  | DocNode.key => top == DocNode.object
  | DocNode.root => false

/-- Set `has_children` of the stack's top node. -/
def set_top_has_children : Stack → Stack
  | [] => []
  | t :: rest => ⟨t.type, true⟩ :: rest

/-- Modelled from the spec: `rw_base::end_child_node` (spec §4.1: "After any
successful child emission, the machine marks the parent's
`has_children = true` and … pops transient KEY … markers"): if the top is a
`KEY` node it is popped (the key-value pair is complete), then the new top's
`has_children` is set. -/
def end_child_node (s : Stack) : Stack :=
  match s with
  | ⟨DocNode.key, _⟩ :: rest => set_top_has_children rest
  | _ => set_top_has_children s

/-- `ascii_writer::write_separator` (writer.hpp:410-426), translated
branch for branch: if the top has children, a comma for `OBJECT`/`ARRAY`,
the multiple-roots error for `ROOT` (the unreachable `assert(false)` arm
writes nothing); otherwise a colon iff the top is a `KEY` node. -/
def write_separator (s : Stack) : List Char × Option WErr :=
  match s with
  | [] => ([], none)
  | t :: _ =>
    if t.has_children then
      match t.type with
      | DocNode.object => ([','], none)
      | DocNode.array => ([','], none)
      | DocNode.root => ([], some WErr.GrammarViolation)
      | _ => ([], none)
    else if t.type = DocNode.key then ([':'], none)
    else ([], none)

/-- `ascii_writer::start_object` / `start_array` (writer.hpp:187-202),
with `rw_base::start_node` modelled from the spec (§4.1 `enter`, §4.4:
check the rule, then emit separator and opening bracket, then push the new
node). -/
def start_container (k : DocNode) (openc : Char) (s : Stack) : WOut :=
  match s with
  | [] => ⟨[], [], some WErr.GrammarViolation⟩
  | t :: _ =>
    if check_rule k t.type then
      match write_separator s with
      | (bs, some e) => ⟨bs, s, some e⟩
      | (bs, none) => ⟨bs ++ [openc], ⟨k, false⟩ :: s, none⟩
    else ⟨[], s, some WErr.GrammarViolation⟩

/-- `ascii_writer::end_object` / `end_array` (writer.hpp:205-216), with
`rw_base::end_node` modelled from the spec (§4.1 `exit`: pop the top only if
its kind matches, a mismatch fails with `GrammarViolation` and writes
nothing; on success the closing bracket is emitted and the closed container
is recorded as a completed child of its parent). -/
def end_container (k : DocNode) (closec : Char) (s : Stack) : WOut :=
  match s with
  | [] => ⟨[], [], some WErr.GrammarViolation⟩
  | t :: rest =>
    if t.type = k then ⟨[closec], end_child_node rest, none⟩
    else ⟨[], s, some WErr.GrammarViolation⟩

/-- `start_object()` (writer.hpp:187-193). -/
def start_object (s : Stack) : WOut := start_container DocNode.object '\x7b' s

/-- `start_array()` (writer.hpp:196-202). -/
def start_array (s : Stack) : WOut := start_container DocNode.array '[' s

/-- `end_object()` (writer.hpp:205-209). -/
def end_object (s : Stack) : WOut := end_container DocNode.object '\x7d' s

/-- `end_array()` (writer.hpp:212-216). -/
def end_array (s : Stack) : WOut := end_container DocNode.array ']' s

/-- `ascii_writer::write_key_impl` (writer.hpp:428-442): the null-key check
comes first, then `assert_rule<DOCNODE_key>`, then the separator, the
escaped quoted key, and the push of the `KEY` node.  A `none` key is a null
`const char*`. -/
def write_key (k : Option (List Char)) (s : Stack) : WOut :=
  match k with
  | none => ⟨[], s, some WErr.NullKey⟩
  | some ks =>
    match s with
    | [] => ⟨[], [], some WErr.GrammarViolation⟩
    | t :: _ =>
      if check_rule DocNode.key t.type then
        match write_separator s with
        | (bs, some e) => ⟨bs, s, some e⟩
        | (bs, none) =>
          ⟨bs ++ write_string_from true ks, ⟨DocNode.key, false⟩ :: s, none⟩
      else ⟨[], s, some WErr.GrammarViolation⟩

/-- `ascii_writer::write_value_impl` (writer.hpp:444-454):
`assert_rule<DOCNODE_value>`, then the separator, then the value encoder
(whose bytes up to the point of a throw remain in the sink), then
`end_child_node`. -/
def write_value (v : JValue) (s : Stack) : WOut :=
  match s with
  | [] => ⟨[], [], some WErr.GrammarViolation⟩
  | t :: _ =>
    if check_rule DocNode.value t.type then
      match write_separator s with
      | (bs, some e) => ⟨bs, s, some e⟩
      | (bs, none) =>
        match raw_write v with
        | (vb, some e) => ⟨bs ++ vb, s, some e⟩
        | (vb, none) => ⟨bs ++ vb, end_child_node s, none⟩
    else ⟨[], s, some WErr.GrammarViolation⟩

/-- `ascii_writer::write_key_value_impl` (writer.hpp:456-474): the null-key
check first, then `assert_rule<DOCNODE_key, DOCNODE_value>` (the rule for
`KEY` against the current top chained with the rule for `VALUE` against a
`KEY` top), then a comma iff the top already has children, the escaped
quoted key, the colon, the value encoder, and `end_child_node` (no `KEY`
node is ever pushed). -/
def write_key_value (k : Option (List Char)) (v : JValue) (s : Stack) : WOut :=
  match k with
  | none => ⟨[], s, some WErr.NullKey⟩
  | some ks =>
    match s with
    | [] => ⟨[], [], some WErr.GrammarViolation⟩
    | t :: _ =>
      if check_rule DocNode.key t.type && check_rule DocNode.value DocNode.key then
        let sep : List Char := if t.has_children then [','] else []
        match raw_write v with
        | (vb, some e) =>
          ⟨sep ++ write_string_from true ks ++ [':'] ++ vb, s, some e⟩
        | (vb, none) =>
          ⟨sep ++ write_string_from true ks ++ [':'] ++ vb, end_child_node s, none⟩
      else ⟨[], s, some WErr.GrammarViolation⟩

/-! ### The sink and writer teardown (`~raw_ascii_writer`, writer.hpp:129-131) -/

/-- Modelled from the spec: the byte sink (§6), scoped to the writer's
lifetime — a write-only byte destination holding bytes not yet flushed, the
bytes already flushed, and whether its `flush()` signals an I/O failure. -/
structure Sink : Type where
  buffered : List Char
  flushed : List Char
  flush_fails : Bool
deriving DecidableEq

/-- The sink's I/O failure (spec §7 `IOFailure`). -/
inductive IOErr : Type
  | IOFailure
deriving DecidableEq

/-- Modelled from the spec: `flush()` of the sink interface (§6):
synchronous, either succeeds (moving the buffered bytes to the flushed
output) or signals an I/O failure. -/
def Sink.flush (s : Sink) : Except IOErr Sink :=
  if s.flush_fails then Except.error IOErr.IOFailure
  else Except.ok ⟨[], s.flushed ++ s.buffered, false⟩

/-- `raw_ascii_writer::~raw_ascii_writer` (writer.hpp:129-131):
`try { m_stream.flush(); } catch (...) {}` — the flush is attempted
unconditionally and any failure is swallowed.  The `Except` result type
records whether teardown itself can signal an error. -/
def writer_dtor (s : Sink) : Except IOErr Sink :=
  match s.flush with
  | Except.ok s1 => Except.ok s1
  | Except.error _ => Except.ok s

/-! ### Call sequences -/

/-- One public writer call. -/
inductive WOp : Type
  | op_start_object
  | op_start_array
  | op_end_object
  | op_end_array
  | op_key (k : Option (List Char))
  | op_value (v : JValue)
  | op_key_value (k : Option (List Char)) (v : JValue)
deriving DecidableEq

/-- Dispatch one call. -/
def run_op : WOp → Stack → WOut
  | WOp.op_start_object, s => start_object s
  | WOp.op_start_array, s => start_array s
  | WOp.op_end_object, s => end_object s
  | WOp.op_end_array, s => end_array s
  | WOp.op_key k, s => write_key k s
  | WOp.op_value v, s => write_value v s
  | WOp.op_key_value k v, s => write_key_value k v s

/-- Run a sequence of calls, concatenating the bytes written to the sink and
stopping at the first error (spec §7: any error is terminal). -/
def run_ops : List WOp → Stack → WOut
  | [], s => ⟨[], s, none⟩
  | o :: os, s =>
    match run_op o s with
    | ⟨bs, s1, none⟩ =>
      let r := run_ops os s1
      ⟨bs ++ r.bytes, r.stack, r.err⟩
    | w => w

/-! ### Decimal digit strings: specification and lemmas -/

/-- Reference form of the digit loop: the decimal digit characters of `n`,
most significant first (what the loop's buffer holds when emitted). -/
def digitsOf (n : Nat) : List Char :=
  if _h : n / 10 = 0 then [digit_char n]
  else digitsOf (n / 10) ++ [digit_char n]
decreasing_by omega

/-- Numeric value of a digit character (`c - '0'`). -/
def char_val (c : Char) : Nat := c.toNat - 48

/-- Interpret a digit string as a decimal numeral, most significant first. -/
def ofDigits (l : List Char) : Nat :=
  l.foldl (fun a c => 10 * a + char_val c) 0

theorem char_val_digit_char (n : Nat) : char_val (digit_char n) = n % 10 := by
  unfold digit_char char_val
  have h : n % 10 < 10 := Nat.mod_lt n (by decide)
  revert h
  generalize n % 10 = m
  intro h
  interval_cases m <;> decide

theorem digit_char_toNat (n : Nat) :
    48 ≤ (digit_char n).toNat ∧ (digit_char n).toNat ≤ 57 := by
  unfold digit_char
  have h : n % 10 < 10 := Nat.mod_lt n (by decide)
  revert h
  generalize n % 10 = m
  intro h
  interval_cases m <;> exact ⟨by decide, by decide⟩

/-- The fueled loop agrees with `digitsOf` whenever the fuel exceeds the
starting value. -/
theorem uint_core_eq_digitsOf :
    ∀ (fuel n : Nat) (acc : List Char), n < fuel →
      uint_core fuel n acc = digitsOf n ++ acc := by
  intro fuel
  induction fuel with
  | zero => intro n acc h; omega
  | succ f ih =>
    intro n acc h
    rw [uint_core]
    by_cases h0 : n / 10 = 0
    · simp only [h0, if_true]
      rw [digitsOf, dif_pos h0]
      rfl
    · simp only [h0, if_false]
      rw [ih (n / 10) (digit_char n :: acc) (by omega)]
      conv_rhs => rw [digitsOf]
      rw [dif_neg h0]
      simp

theorem write_uint_chars_eq_digitsOf (n : Nat) :
    write_uint_chars n = digitsOf n := by
  rw [write_uint_chars, uint_core_eq_digitsOf (n + 1) n [] (by omega)]
  simp

theorem ofDigits_append_digit (l : List Char) (c : Char) :
    ofDigits (l ++ [c]) = 10 * ofDigits l + char_val c := by
  simp [ofDigits, List.foldl_append]

/-- The digit string of `n` evaluates back to `n`. -/
theorem ofDigits_digitsOf (n : Nat) : ofDigits (digitsOf n) = n := by
  induction n using Nat.strong_induction_on with
  | _ n ih =>
    rw [digitsOf]
    by_cases h0 : n / 10 = 0
    · rw [dif_pos h0]
      have : ofDigits [digit_char n] = char_val (digit_char n) := by
        simp [ofDigits]
      rw [this, char_val_digit_char]
      omega
    · rw [dif_neg h0]
      rw [ofDigits_append_digit, ih (n / 10) (by omega), char_val_digit_char]
      omega

/-- Every character produced by the digit loop is a decimal digit. -/
theorem digitsOf_mem_digit (n : Nat) :
    ∀ c ∈ digitsOf n, 48 ≤ c.toNat ∧ c.toNat ≤ 57 := by
  induction n using Nat.strong_induction_on with
  | _ n ih =>
    intro c hc
    rw [digitsOf] at hc
    by_cases h0 : n / 10 = 0
    · rw [dif_pos h0] at hc
      simp at hc
      subst hc
      exact digit_char_toNat n
    · rw [dif_neg h0] at hc
      rcases List.mem_append.mp hc with h1 | h2
      · exact ih (n / 10) (by omega) c h1
      · simp at h2
        subst h2
        exact digit_char_toNat n

/-- For nonzero `n` the digit string starts with a nonzero digit. -/
theorem digitsOf_no_leading_zero : ∀ n : Nat, n ≠ 0 →
    ∃ c cs, digitsOf n = c :: cs ∧ c ≠ '0' := by
  intro n
  induction n using Nat.strong_induction_on with
  | _ n ih =>
    intro hn
    rw [digitsOf]
    by_cases h0 : n / 10 = 0
    · rw [dif_pos h0]
      refine ⟨digit_char n, [], rfl, ?_⟩
      intro hcontra
      have hv := char_val_digit_char n
      rw [hcontra] at hv
      have hz : char_val '0' = 0 := by decide
      omega
    · rw [dif_neg h0]
      obtain ⟨c, cs, hcs, hc0⟩ := ih (n / 10) (by omega) h0
      exact ⟨c, cs ++ [digit_char n], by rw [hcs]; rfl, hc0⟩

/-- The digit string of `n` has `log₁₀ n + 1` characters. -/
theorem digitsOf_length (n : Nat) :
    (digitsOf n).length = Nat.log 10 n + 1 := by
  induction n using Nat.strong_induction_on with
  | _ n ih =>
    rw [digitsOf]
    by_cases h0 : n / 10 = 0
    · rw [dif_pos h0]
      have hlt : n < 10 := by omega
      have : Nat.log 10 n = 0 := by
        rw [Nat.log_eq_zero_iff]
        left
        exact hlt
      simp [this]
    · rw [dif_neg h0]
      have h10 : 10 ≤ n := by omega
      have hlog : Nat.log 10 (n / 10) = Nat.log 10 n - 1 := Nat.log_div_base 10 n
      have hpos : 0 < Nat.log 10 n := Nat.log_pos (by decide) h10
      simp [ih (n / 10) (by omega), hlog]
      omega

/-- Digit-string length is monotone. -/
theorem digitsOf_length_mono {m n : Nat} (h : m ≤ n) :
    (digitsOf m).length ≤ (digitsOf n).length := by
  rw [digitsOf_length, digitsOf_length]
  have hmono := @Nat.log_mono_right 10 m n h
  omega

/-! ### Parsing an optionally signed decimal string -/

/-- Interpret a digit string with an optional leading minus sign, the
external reading of `write_int_chars`' output. -/
def intOfChars : List Char → Int
  | [] => 0
  | c :: rest =>
    if c = '-' then -(ofDigits rest : Int) else (ofDigits (c :: rest) : Int)

theorem intOfChars_no_sign (l : List Char) (h : l.head? ≠ some '-') :
    intOfChars l = (ofDigits l : Int) := by
  match l with
  | [] => simp [intOfChars, ofDigits]
  | c :: rest =>
    have hc : ¬(c = '-') := by simpa using h
    simp [intOfChars, hc]

theorem digitsOf_ne_nil (n : Nat) : digitsOf n ≠ [] := by
  rw [digitsOf]
  split <;> simp

/-- The only error the value encoders can signal is `InvalidNumericValue`
(from the floating-point encoder). -/
theorem raw_write_err (v : JValue) (e : WErr) (h : (raw_write v).2 = some e) :
    e = WErr.InvalidNumericValue := by
  cases v with
  | jint w i => simp [raw_write] at h
  | juint w n => simp [raw_write] at h
  | jfloat f =>
    cases f with
    | finite r => simp [raw_write, write_floating] at h
    | nonfinite =>
      simp [raw_write, write_floating] at h
      exact h.symm
  | jbool b => cases b <;> simp [raw_write] at h
  | jstr s => cases s <;> simp [raw_write] at h
  | jnull => simp [raw_write] at h

/-- The only error the separator logic can signal is the multiple-roots
`GrammarViolation`. -/
theorem write_separator_err (s : Stack) (e : WErr)
    (h : (write_separator s).2 = some e) : e = WErr.GrammarViolation := by
  cases s with
  | nil => simp [write_separator] at h
  | cons t rest =>
    obtain ⟨ty, hc⟩ := t
    cases ty <;> cases hc <;> simp [write_separator] at h
    exact h.symm

/-! ### Well-formedness of reachable node stacks -/

/-- Invariant of every reachable node stack: a `KEY` node always has
`has_children = false` and sits directly above an `OBJECT` node. -/
def stack_wf : Stack → Prop
  | [] => True
  | t :: rest =>
    (t.type = DocNode.key →
      t.has_children = false ∧
      (match rest with
       | r1 :: _ => r1.type = DocNode.object
       | [] => False)) ∧
    stack_wf rest

theorem stack_wf_init : stack_wf init_stack := by
  refine ⟨fun hk => ?_, trivial⟩
  exact absurd hk (by decide)

theorem stack_wf_end_child (s : Stack) (hs : stack_wf s) :
    stack_wf (end_child_node s) := by
  cases s with
  | nil => exact hs
  | cons t rest =>
    obtain ⟨ty, hc⟩ := t
    obtain ⟨h1, h2⟩ := hs
    cases ty with
    | key =>
      obtain ⟨hhc, hobj⟩ := h1 rfl
      show stack_wf (set_top_has_children rest)
      cases rest with
      | nil => exact hobj.elim
      | cons r1 r3 =>
        obtain ⟨ty2, hc2⟩ := r1
        obtain ⟨g1, g2⟩ := h2
        have hty2 : ty2 = DocNode.object := hobj
        subst hty2
        exact ⟨fun hk => DocNode.noConfusion hk, g2⟩
    | root =>
      exact ⟨fun hk => DocNode.noConfusion hk, h2⟩
    | object =>
      exact ⟨fun hk => DocNode.noConfusion hk, h2⟩
    | array =>
      exact ⟨fun hk => DocNode.noConfusion hk, h2⟩
    | value =>
      exact ⟨fun hk => DocNode.noConfusion hk, h2⟩

theorem stack_wf_start_container (k : DocNode) (c : Char) (s : Stack)
    (hs : stack_wf s) (hk : k ≠ DocNode.key) :
    stack_wf (start_container k c s).stack := by
  cases s with
  | nil => trivial
  | cons t rest =>
    simp only [start_container]
    by_cases hr : check_rule k t.type = true
    · rw [if_pos hr]
      rcases hsep : write_separator (t :: rest) with ⟨bs, e⟩
      cases e with
      | none =>
        simp only [hsep]
        exact ⟨fun hkk => absurd hkk hk, hs⟩
      | some e1 =>
        simp only [hsep]
        exact hs
    · rw [if_neg hr]
      exact hs

theorem stack_wf_end_container (k : DocNode) (c : Char) (s : Stack)
    (hs : stack_wf s) :
    stack_wf (end_container k c s).stack := by
  cases s with
  | nil => trivial
  | cons t rest =>
    simp only [end_container]
    by_cases ht : t.type = k
    · rw [if_pos ht]
      exact stack_wf_end_child rest hs.2
    · rw [if_neg ht]
      exact hs

theorem stack_wf_write_key (k : Option (List Char)) (s : Stack)
    (hs : stack_wf s) :
    stack_wf (write_key k s).stack := by
  cases k with
  | none => exact hs
  | some ks =>
    cases s with
    | nil => trivial
    | cons t rest =>
      simp only [write_key]
      by_cases hr : check_rule DocNode.key t.type = true
      · rw [if_pos hr]
        have hobj : t.type = DocNode.object := by
          simpa [check_rule] using hr
        rcases hsep : write_separator (t :: rest) with ⟨bs, e⟩
        cases e with
        | none =>
          simp only [hsep]
          exact ⟨fun _ => ⟨rfl, hobj⟩, hs⟩
        | some e1 =>
          simp only [hsep]
          exact hs
      · rw [if_neg hr]
        exact hs

theorem stack_wf_write_value (v : JValue) (s : Stack) (hs : stack_wf s) :
    stack_wf (write_value v s).stack := by
  cases s with
  | nil => trivial
  | cons t rest =>
    simp only [write_value]
    by_cases hr : check_rule DocNode.value t.type = true
    · rw [if_pos hr]
      rcases hsep : write_separator (t :: rest) with ⟨bs, e⟩
      cases e with
      | none =>
        simp only [hsep]
        rcases hv : raw_write v with ⟨vb, e2⟩
        cases e2 with
        | none =>
          simp only [hv]
          exact stack_wf_end_child (t :: rest) hs
        | some e3 =>
          simp only [hv]
          exact hs
      | some e1 =>
        simp only [hsep]
        exact hs
    · rw [if_neg hr]
      exact hs

theorem stack_wf_write_key_value (k : Option (List Char)) (v : JValue)
    (s : Stack) (hs : stack_wf s) :
    stack_wf (write_key_value k v s).stack := by
  cases k with
  | none => exact hs
  | some ks =>
    cases s with
    | nil => trivial
    | cons t rest =>
      simp only [write_key_value]
      by_cases hr : (check_rule DocNode.key t.type
          && check_rule DocNode.value DocNode.key) = true
      · rw [if_pos hr]
        rcases hv : raw_write v with ⟨vb, e2⟩
        cases e2 with
        | none =>
          simp only [hv]
          exact stack_wf_end_child (t :: rest) hs
        | some e3 =>
          simp only [hv]
          exact hs
      · rw [if_neg hr]
        exact hs

theorem stack_wf_run_op (o : WOp) (s : Stack) (hs : stack_wf s) :
    stack_wf (run_op o s).stack := by
  cases o with
  | op_start_object => exact stack_wf_start_container _ _ s hs (by decide)
  | op_start_array => exact stack_wf_start_container _ _ s hs (by decide)
  | op_end_object => exact stack_wf_end_container _ _ s hs
  | op_end_array => exact stack_wf_end_container _ _ s hs
  | op_key k => exact stack_wf_write_key k s hs
  | op_value v => exact stack_wf_write_value v s hs
  | op_key_value k v => exact stack_wf_write_key_value k v s hs

theorem stack_wf_run_ops (ops : List WOp) (s : Stack) (hs : stack_wf s) :
    stack_wf (run_ops ops s).stack := by
  induction ops generalizing s with
  | nil => exact hs
  | cons o os ih =>
    rcases ho : run_op o s with ⟨bs, s1, e⟩
    have h1 : stack_wf s1 := by
      have hwf := stack_wf_run_op o s hs
      rw [ho] at hwf
      exact hwf
    cases e with
    | none =>
      simp only [run_ops, ho]
      exact ih s1 h1
    | some e1 =>
      simp only [run_ops, ho]
      exact h1

/-- In a well-formed stack every `KEY` node has `has_children = false`. -/
theorem stack_wf_keys_childless (s : Stack) (hs : stack_wf s) :
    ∀ t ∈ s, t.type = DocNode.key → t.has_children = false := by
  induction s with
  | nil =>
    intro t ht
    simp at ht
  | cons a rest ih =>
    intro t ht hk
    rcases List.mem_cons.mp ht with rfl | hmem
    · exact (hs.1 hk).1
    · exact ih hs.2 t hmem hk

/-! ### Width-safe absolute value -/

/-- For a value in the two's-complement range of width `w`, the unsigned
absolute-value computation of `absu` does not overflow: it yields exactly
`|v|`, including for the minimal representable negative value. -/
theorem absu_eq_natAbs (w : Nat) (v : Int) (hw : 0 < w)
    (hlo : -(2 ^ (w - 1) : Int) ≤ v) (hhi : v < 2 ^ (w - 1)) :
    absu w v = v.natAbs := by
  have hQP : (2 : Int) ^ w = 2 * 2 ^ (w - 1) := by
    conv_lhs => rw [show w = (w - 1) + 1 by omega]
    rw [pow_succ]
    ring
  have hPpos : (0 : Int) < 2 ^ (w - 1) := pow_pos (by norm_num) (w - 1)
  have hQN : (((2 : Nat) ^ w : Nat) : Int) = (2 : Int) ^ w := by push_cast; ring
  unfold absu
  by_cases hv : v < 0
  · rw [if_pos hv]
    have hmod0 : (v + (2 : Int) ^ w * 1) % (2 : Int) ^ w = v % (2 : Int) ^ w :=
      Int.add_mul_emod_self_left v ((2 : Int) ^ w) 1
    have hmod : v % (2 : Int) ^ w = v + 2 ^ w := by
      rw [← hmod0, mul_one]
      exact Int.emod_eq_of_lt (by omega) (by omega)
    rw [hmod]
    have hlt : (2 : Nat) ^ w - (v + 2 ^ w).toNat < 2 ^ w := by omega
    rw [Nat.mod_eq_of_lt hlt]
    omega
  · rw [if_neg hv]
    have hmod : v % (2 : Int) ^ w = v := Int.emod_eq_of_lt (by omega) (by omega)
    rw [hmod]
    omega

/-! ### Claims -/

/-- C1 (evaluation at the failing input): the escape loop of
`write_string_from` passes the control character U+0001 through unchanged,
so a successful `write_value` of the one-character string `"\x01"` is
accepted without error and places the raw control byte between the quotes
in the sink — output that is not valid RFC 8259 JSON, contradicting the
claim that no control character reaches the output unescaped. -/
theorem C1_unescaped_control_char :
    escape_char '\x01' = ['\x01']
    ∧ write_value (JValue.jstr (some ['\x01'])) init_stack
        = ⟨['\"', '\x01', '\"'], [⟨DocNode.root, true⟩], none⟩ := by
  decide

/-- C2 (amended): in any state whose top permits a value and is not a
completed root, writing a non-finite floating value fails with
`InvalidNumericValue`; the floating-point encoder itself writes no bytes,
but `write_value` emits the pending separator byte before the failure; a
finite floating value never raises `InvalidNumericValue`. -/
theorem C2_nonfinite_rejected (t : Node) (rest : Stack)
    (hrule : check_rule DocNode.value t.type = true)
    (hroot : ¬(t.type = DocNode.root ∧ t.has_children = true)) :
    write_floating FloatVal.nonfinite = ([], some WErr.InvalidNumericValue)
    ∧ write_value (JValue.jfloat FloatVal.nonfinite) (t :: rest)
        = ⟨(write_separator (t :: rest)).1, t :: rest, some WErr.InvalidNumericValue⟩
    ∧ (∀ r : List Char, write_floating (FloatVal.finite r) = (r, none))
    ∧ (∀ (r : List Char) (s : Stack),
        (write_value (JValue.jfloat (FloatVal.finite r)) s).err
          ≠ some WErr.InvalidNumericValue) := by
  refine ⟨rfl, ?_, fun r => rfl, ?_⟩
  · obtain ⟨ty, hc⟩ := t
    cases ty with
    | object => simp [check_rule] at hrule
    | value => simp [check_rule] at hrule
    | root =>
      cases hc with
      | true => exact absurd ⟨rfl, rfl⟩ hroot
      | false => simp [write_value, check_rule, write_separator, raw_write, write_floating]
    | array =>
      cases hc <;>
        simp [write_value, check_rule, write_separator, raw_write, write_floating]
    | key =>
      cases hc <;>
        simp [write_value, check_rule, write_separator, raw_write, write_floating]
  · intro r s
    cases s with
    | nil => simp [write_value]
    | cons t2 rest2 =>
      by_cases hr : check_rule DocNode.value t2.type = true
      · simp only [write_value, hr, if_true]
        rcases hsep : write_separator (t2 :: rest2) with ⟨bs, e⟩
        cases e with
        | none => simp [hsep, raw_write, write_floating]
        | some e1 =>
          have hGV : e1 = WErr.GrammarViolation :=
            write_separator_err (t2 :: rest2) e1 (by rw [hsep])
          subst hGV
          simp [hsep]
      · simp [write_value, hr]

/-- C2 witness: instantiation at a fresh root. -/
theorem C2_nonfinite_rejected_witness :
    write_value (JValue.jfloat FloatVal.nonfinite) init_stack
      = ⟨[], init_stack, some WErr.InvalidNumericValue⟩ := by
  have h := (C2_nonfinite_rejected ⟨DocNode.root, false⟩ []
    (by decide) (by decide)).2.1
  simpa [init_stack, write_separator] using h

/-- C2 counterexample to the claim as stated: in an array that already has
one element, `write_value` of a non-finite float fails with
`InvalidNumericValue` but has already written the `,` separator byte to the
sink, so the call does write bytes. -/
theorem C2_separator_byte_counterexample :
    write_value (JValue.jfloat FloatVal.nonfinite)
        [⟨DocNode.array, true⟩, ⟨DocNode.root, false⟩]
      = ⟨[','], [⟨DocNode.array, true⟩, ⟨DocNode.root, false⟩],
          some WErr.InvalidNumericValue⟩ := by
  decide

/-- C3 (amended): `write_key_value(key, value)` writes exactly the same
bytes and raises exactly the same error as `write_key(key)` immediately
followed by `write_value(value)`, and when it succeeds the final node
stacks also coincide; a `NullKey` or `GrammarViolation` failure occurs
before any byte is written, but a value-encoding failure
(`InvalidNumericValue`) occurs after the key and `:` bytes. -/
theorem C3_fused_equals_sequence (k : Option (List Char)) (v : JValue) (s : Stack) :
    (write_key_value k v s).bytes = (run_ops [WOp.op_key k, WOp.op_value v] s).bytes
    ∧ (write_key_value k v s).err = (run_ops [WOp.op_key k, WOp.op_value v] s).err
    ∧ ((write_key_value k v s).err = none →
        (write_key_value k v s).stack
          = (run_ops [WOp.op_key k, WOp.op_value v] s).stack)
    ∧ ((write_key_value k v s).err = some WErr.NullKey
        ∨ (write_key_value k v s).err = some WErr.GrammarViolation →
        (write_key_value k v s).bytes = []) := by
  cases k with
  | none => exact ⟨rfl, rfl, fun h => Option.noConfusion h, fun _ => rfl⟩
  | some ks =>
    cases s with
    | nil => exact ⟨rfl, rfl, fun h => Option.noConfusion h, fun _ => rfl⟩
    | cons t rest =>
      by_cases hr : check_rule DocNode.key t.type = true
      · have hobj : t.type = DocNode.object := by simpa [check_rule] using hr
        obtain ⟨ty, hc⟩ := t
        have hty : ty = DocNode.object := hobj
        subst hty
        rcases hv : raw_write v with ⟨vb, e2⟩
        cases e2 with
        | none =>
          cases hc <;>
            simp [write_key_value, write_key, write_value, run_ops, run_op,
              check_rule, write_separator, end_child_node,
              set_top_has_children, hv]
        | some e1 =>
          have hIVN : e1 = WErr.InvalidNumericValue :=
            raw_write_err v e1 (by rw [hv])
          subst hIVN
          cases hc <;>
            simp [write_key_value, write_key, write_value, run_ops, run_op,
              check_rule, write_separator, end_child_node,
              set_top_has_children, hv]
      · have hr2 : check_rule DocNode.key t.type = false := by
          simpa using hr
        simp [write_key_value, write_key, run_ops, run_op, hr2]

/-- C3 witness: on a successful call the fused and sequenced forms leave
identical stacks. -/
theorem C3_fused_equals_sequence_witness :
    (write_key_value (some ['k']) (JValue.jbool true)
        [⟨DocNode.object, false⟩, ⟨DocNode.root, false⟩]).stack
      = (run_ops [WOp.op_key (some ['k']), WOp.op_value (JValue.jbool true)]
          [⟨DocNode.object, false⟩, ⟨DocNode.root, false⟩]).stack :=
  (C3_fused_equals_sequence (some ['k']) (JValue.jbool true)
    [⟨DocNode.object, false⟩, ⟨DocNode.root, false⟩]).2.2.1 (by decide)

/-- C3 counterexample to the claim as stated: a fused key-value write of a
non-finite float fails with `InvalidNumericValue` only after the key and
`:` bytes have reached the sink, and leaves a different node stack than the
`write_key`-then-`write_value` sequence does. -/
theorem C3_atomicity_counterexample :
    (write_key_value (some ['k']) (JValue.jfloat FloatVal.nonfinite)
        [⟨DocNode.object, false⟩, ⟨DocNode.root, false⟩]).err
      = some WErr.InvalidNumericValue
    ∧ (write_key_value (some ['k']) (JValue.jfloat FloatVal.nonfinite)
        [⟨DocNode.object, false⟩, ⟨DocNode.root, false⟩]).bytes
      = ['\"', 'k', '\"', ':']
    ∧ (write_key_value (some ['k']) (JValue.jfloat FloatVal.nonfinite)
        [⟨DocNode.object, false⟩, ⟨DocNode.root, false⟩]).stack
      ≠ (run_ops
          [WOp.op_key (some ['k']), WOp.op_value (JValue.jfloat FloatVal.nonfinite)]
          [⟨DocNode.object, false⟩, ⟨DocNode.root, false⟩]).stack := by
  decide

/-- C4: `write_separator` emits `,` iff the top has children and is OBJECT
or ARRAY, `:` iff the top is a KEY node (and a KEY node never has children
in any reachable stack), and fails with `GrammarViolation` iff the top is
ROOT with children; consequently a second `write_value` at root level fails
with `GrammarViolation` on the second call. -/
theorem C4_separator_policy :
    (∀ (t : Node) (rest : Stack),
      (t.type = DocNode.key → t.has_children = false) →
      write_separator (t :: rest) =
        if t.has_children = true
            ∧ (t.type = DocNode.object ∨ t.type = DocNode.array)
          then ([','], none)
        else if t.type = DocNode.key then ([':'], none)
        else if t.has_children = true ∧ t.type = DocNode.root
          then ([], some WErr.GrammarViolation)
        else ([], none))
    ∧ (∀ ops : List WOp, ∀ t, t ∈ (run_ops ops init_stack).stack →
        t.type = DocNode.key → t.has_children = false)
    ∧ (∀ v v' : JValue, (write_value v init_stack).err = none →
        (run_ops [WOp.op_value v, WOp.op_value v'] init_stack).err
          = some WErr.GrammarViolation) := by
  refine ⟨?_, ?_, ?_⟩
  · intro t rest hkey
    obtain ⟨ty, hc⟩ := t
    cases ty <;> cases hc <;>
      first
        | exact absurd (hkey rfl) (by decide)
        | simp [write_separator]
  · intro ops t hmem hk
    exact stack_wf_keys_childless _
      (stack_wf_run_ops ops init_stack stack_wf_init) t hmem hk
  · intro v v' herr
    rcases hv : raw_write v with ⟨vb, e⟩
    cases e with
    | some e1 =>
      exfalso
      simp [write_value, init_stack, check_rule, write_separator, hv] at herr
    | none =>
      simp [run_ops, run_op, write_value, init_stack, check_rule,
        write_separator, end_child_node, set_top_has_children, hv]

/-- C4 witness: instantiations at concrete inputs. -/
theorem C4_separator_policy_witness :
    write_separator [⟨DocNode.object, true⟩, ⟨DocNode.root, false⟩]
      = ([','], none)
    ∧ (run_ops [WOp.op_value JValue.jnull, WOp.op_value JValue.jnull]
        init_stack).err = some WErr.GrammarViolation := by
  constructor
  · have h := C4_separator_policy.1 ⟨DocNode.object, true⟩
      [⟨DocNode.root, false⟩] (by decide)
    rw [h]
    decide
  · exact C4_separator_policy.2.2 JValue.jnull JValue.jnull (by decide)

/-- C6: for every two's-complement value of width `w`, the signed encoder
takes the absolute value via the width-safe unsigned conversion without
overflow (also for the minimal value), encodes the digits as for unsigned
values, prepends `-` exactly when the value is negative, and the resulting
text reads back as exactly the original value. -/
theorem C6_signed_int_encoding (w : Nat) (v : Int) (hw : 0 < w)
    (hlo : -(2 ^ (w - 1) : Int) ≤ v) (hhi : v < 2 ^ (w - 1)) :
    absu w v = v.natAbs
    ∧ write_int_chars w v
        = (if v < 0 then ['-'] else []) ++ write_uint_chars v.natAbs
    ∧ intOfChars (write_int_chars w v) = v := by
  have habs := absu_eq_natAbs w v hw hlo hhi
  have hchars : write_int_chars w v
      = (if v < 0 then ['-'] else []) ++ write_uint_chars v.natAbs := by
    unfold write_int_chars
    rw [habs]
    by_cases hv : v < 0 <;> simp [hv]
  refine ⟨habs, hchars, ?_⟩
  rw [hchars]
  by_cases hv : v < 0
  · rw [if_pos hv]
    have hstep : intOfChars ('-' :: write_uint_chars v.natAbs)
        = -(ofDigits (write_uint_chars v.natAbs) : Int) := by
      simp [intOfChars]
    calc intOfChars (['-'] ++ write_uint_chars v.natAbs)
        = intOfChars ('-' :: write_uint_chars v.natAbs) := rfl
      _ = -(ofDigits (write_uint_chars v.natAbs) : Int) := hstep
      _ = -(v.natAbs : Int) := by
          rw [write_uint_chars_eq_digitsOf, ofDigits_digitsOf]
      _ = v := by omega
  · rw [if_neg hv]
    simp only [List.nil_append]
    have hns : (write_uint_chars v.natAbs).head? ≠ some '-' := by
      rw [write_uint_chars_eq_digitsOf]
      cases hd : digitsOf v.natAbs with
      | nil => exact absurd hd (digitsOf_ne_nil v.natAbs)
      | cons c cs =>
        have hcmem : c ∈ digitsOf v.natAbs := by rw [hd]; exact List.mem_cons_self c cs
        have hrange := digitsOf_mem_digit v.natAbs c hcmem
        simp only [List.head?_cons]
        intro hcon
        have hcc : c = '-' := by simpa using hcon
        rw [hcc] at hrange
        revert hrange
        decide
    rw [intOfChars_no_sign _ hns, write_uint_chars_eq_digitsOf, ofDigits_digitsOf]
    omega

/-- C6 witness: the minimal 8-bit value. -/
theorem C6_signed_int_encoding_witness :
    absu 8 (-128) = Int.natAbs (-128)
    ∧ write_int_chars 8 (-128)
        = (if (-128 : Int) < 0 then ['-'] else [])
            ++ write_uint_chars (Int.natAbs (-128))
    ∧ intOfChars (write_int_chars 8 (-128)) = -128 :=
  C6_signed_int_encoding 8 (-128) (by decide) (by decide) (by decide)

/-- C7: the unsigned encoder produces the exact decimal representation
(reading the digits back yields the value), every emitted character is a
decimal digit, there is no leading zero, zero encodes as `0`, and the digit
count never exceeds the width's maximum decimal digit count (the loop's
fixed buffer capacity). -/
theorem C7_uint_encoding (w n : Nat) (h : n < 2 ^ w) :
    ofDigits (write_uint_chars n) = n
    ∧ (∀ c ∈ write_uint_chars n, 48 ≤ c.toNat ∧ c.toNat ≤ 57)
    ∧ (n ≠ 0 → (write_uint_chars n).head? ≠ some '0')
    ∧ write_uint_chars 0 = ['0']
    ∧ (write_uint_chars n).length ≤ (write_uint_chars (2 ^ w - 1)).length := by
  refine ⟨?_, ?_, ?_, by decide, ?_⟩
  · rw [write_uint_chars_eq_digitsOf]
    exact ofDigits_digitsOf n
  · rw [write_uint_chars_eq_digitsOf]
    exact digitsOf_mem_digit n
  · intro hn
    rw [write_uint_chars_eq_digitsOf]
    obtain ⟨c, cs, hcs, hc0⟩ := digitsOf_no_leading_zero n hn
    rw [hcs]
    simp [hc0]
  · rw [write_uint_chars_eq_digitsOf, write_uint_chars_eq_digitsOf]
    exact digitsOf_length_mono (by omega)

/-- C7 witness: a 32-bit value. -/
theorem C7_uint_encoding_witness :
    ofDigits (write_uint_chars 1234567890) = 1234567890
    ∧ (∀ c ∈ write_uint_chars 1234567890, 48 ≤ c.toNat ∧ c.toNat ≤ 57)
    ∧ (1234567890 ≠ 0 → (write_uint_chars 1234567890).head? ≠ some '0')
    ∧ write_uint_chars 0 = ['0']
    ∧ (write_uint_chars 1234567890).length
        ≤ (write_uint_chars (2 ^ 32 - 1)).length :=
  C7_uint_encoding 32 1234567890 (by decide)

/-- C8: from a fresh writer, `start_object(); write_key("x");
write_value(5); end_object();` succeeds and the sink receives exactly
the bytes of the text with x mapped to 5, leaving a completed root. -/
theorem C8_object_scenario :
    run_ops [WOp.op_start_object, WOp.op_key (some ['x']),
        WOp.op_value (JValue.jint 32 5), WOp.op_end_object] init_stack
      = ⟨['\x7b', '\"', 'x', '\"', ':', '5', '\x7d'],
          [⟨DocNode.root, true⟩], none⟩ := by
  decide

/-- C9: writer teardown attempts the flush unconditionally and never
raises: it returns `ok` for every sink, flushing the buffered bytes when
the flush succeeds and swallowing the failure (leaving the sink as it was)
when the flush fails. -/
theorem C9_teardown_never_raises (s : Sink) :
    (∃ s1, writer_dtor s = Except.ok s1)
    ∧ (s.flush_fails = false →
        writer_dtor s = Except.ok ⟨[], s.flushed ++ s.buffered, false⟩)
    ∧ (s.flush_fails = true → writer_dtor s = Except.ok s) := by
  obtain ⟨b, fl, ff⟩ := s
  cases ff with
  | false =>
    exact ⟨⟨⟨[], fl ++ b, false⟩, rfl⟩, fun _ => rfl,
      fun hcon => Bool.noConfusion hcon⟩
  | true =>
    exact ⟨⟨⟨b, fl, true⟩, rfl⟩, fun hcon => Bool.noConfusion hcon,
      fun _ => rfl⟩

/-- C9 witness: a sink whose flush fails. -/
theorem C9_teardown_never_raises_witness :
    (∃ s1, writer_dtor ⟨['a'], [], true⟩ = Except.ok s1)
    ∧ ((⟨['a'], [], true⟩ : Sink).flush_fails = false →
        writer_dtor ⟨['a'], [], true⟩
          = Except.ok ⟨[], (⟨['a'], [], true⟩ : Sink).flushed
              ++ (⟨['a'], [], true⟩ : Sink).buffered, false⟩)
    ∧ ((⟨['a'], [], true⟩ : Sink).flush_fails = true →
        writer_dtor ⟨['a'], [], true⟩ = Except.ok ⟨['a'], [], true⟩) :=
  C9_teardown_never_raises ⟨['a'], [], true⟩

/-- C10: in `write_key` and `write_key_value` the null-key check precedes
the grammar check: with an absent key both fail with `NullKey` in every
state — even structurally illegal ones — writing nothing and leaving the
node stack unchanged. -/
theorem C10_null_key_precedence (s : Stack) (v : JValue) :
    write_key none s = ⟨[], s, some WErr.NullKey⟩
    ∧ write_key_value none v s = ⟨[], s, some WErr.NullKey⟩ :=
  ⟨rfl, rfl⟩

end Sijson
